import Mathlib

/-!
Verification of the vcad knowledge-distillation core
(`packages/training/src/lambda/distill_lambda.py` and
`packages/training/src/modal/distill.py`) against its natural-language
specification.  The Python code is shallowly embedded: pure fragments
become Lean functions, tensor values are abstracted to exact rationals,
token ids to integers, and the third-party `DistributedSampler` is
embedded from its documented slicing/padding algorithm.
-/

namespace VCad

/-! ## Data loading (`load_jsonl`, both variants)

A line of the input file is either blank (only whitespace), malformed
(not valid JSON), or a valid record parsing to a value of `α`. -/

inductive JsonLine (α : Type) where
  | blank : JsonLine α
  | malformed : JsonLine α
  | valid : α → JsonLine α
deriving DecidableEq, Repr

/-- Embedding of `load_jsonl` (distill_lambda.py lines 62-70, distill.py
lines 169-176): iterate over lines, skip blank lines, call `json.loads`
on the rest, appending each parsed record.  `json.loads` raises on a
malformed line and nothing catches the exception, so the whole load
aborts, modelled by `Except.error`. -/
def load_jsonl {α : Type} : List (JsonLine α) → Except Unit (List α)
  | [] => Except.ok []
  | JsonLine.blank :: rest => load_jsonl rest
  | JsonLine.malformed :: _ => Except.error ()
  | JsonLine.valid a :: rest => (load_jsonl rest).map (a :: ·)

/-- Modelled from the spec: the loader the spec describes, which skips
each malformed line and counts it instead of aborting (`src` contains no
such loader; both `load_jsonl` implementations re-raise the parse
error).  Returns the kept records and the skip count. -/
def load_jsonl_spec {α : Type} : List (JsonLine α) → List α × Nat
  | [] => ([], 0)
  | JsonLine.blank :: rest => load_jsonl_spec rest
  | JsonLine.malformed :: rest =>
      let r := load_jsonl_spec rest
      (r.1, r.2 + 1)
  | JsonLine.valid a :: rest =>
      let r := load_jsonl_spec rest
      (a :: r.1, r.2)

/-- The value of a valid line, for stating what a successful load returns. -/
def lineValue {α : Type} : JsonLine α → Option α
  | JsonLine.valid a => some a
  | _ => none

/-! ## Vocabulary reconciliation (distill_lambda.py lines 187-205) -/

/-- Embedding of the vocabulary-reconciliation block: from the two
tokenizer sizes and the two model embedding-table sizes it computes
`target_vocab = max(teacher_tok_vocab, student_tok_vocab,
teacher_model_vocab, student_model_vocab)` and resizes either model
whose table differs from the target.  Returns
`(target_vocab, teacher_model_vocab', student_model_vocab')`. -/
def reconcileVocab (teacher_tok_vocab student_tok_vocab
    teacher_model_vocab student_model_vocab : Nat) : Nat × Nat × Nat :=
  let target_vocab :=
    max (max (max teacher_tok_vocab student_tok_vocab) teacher_model_vocab)
      student_model_vocab
  let teacher' := if teacher_model_vocab ≠ target_vocab then target_vocab
    else teacher_model_vocab
  let student' := if student_model_vocab ≠ target_vocab then target_vocab
    else student_model_vocab
  (target_vocab, teacher', student')

/-! ## Canonical-tokenizer selection -/

inductive TokChoice where
  | teacher : TokChoice
  | student : TokChoice
deriving DecidableEq, Repr

/-- Embedding of distill_lambda.py line 217:
`tokenizer = teacher_tokenizer if teacher_tok_vocab >= student_tok_vocab
else student_tokenizer`. -/
def selectTokenizerLambda (teacher_tok_vocab student_tok_vocab : Nat) :
    TokChoice :=
  if teacher_tok_vocab ≥ student_tok_vocab then TokChoice.teacher
  else TokChoice.student

/-- Embedding of distill.py `tokenize_example` (lines 193-216): the modal
variant always tokenizes with `student_tokenizer`, independently of the
vocabulary sizes. -/
def selectTokenizerModal (_teacher_tok_vocab _student_tok_vocab : Nat) :
    TokChoice :=
  TokChoice.student

/-- The vocabulary size of a chosen tokenizer. -/
def tokVocabOf (teacher_tok_vocab student_tok_vocab : Nat) :
    TokChoice → Nat
  | TokChoice.teacher => teacher_tok_vocab
  | TokChoice.student => student_tok_vocab

/-! ## Device placement (distill_lambda.py lines 136-147)

When `world_size > 1`: `teacher_gpu = local_rank * 2 + 1`,
`student_gpu = local_rank * 2`.  Otherwise the student goes to GPU 0 and
the teacher is placed by `device_map="auto"` (no pinned index, modelled
as `none`). -/

def studentGpu (world_size local_rank : Nat) : Nat :=
  if world_size > 1 then local_rank * 2 else 0

def teacherGpu (world_size local_rank : Nat) : Option Nat :=
  if world_size > 1 then some (local_rank * 2 + 1) else none

/-! ## The `max_samples` cap (distill_lambda.py lines 223-227, distill.py
lines 181-185)

`max_samples: int | None`; the cap is `if max_samples: train_data =
train_data[:max_samples]`, a Python truthiness test, and `l[:n]` for
negative `n` drops `-n` elements from the end. -/

/-- Python truthiness of an `int | None` value. -/
def optIntTruthy : Option Int → Bool
  | none => false
  | some n => decide (n ≠ 0)

/-- Python `l[:n]` for an arbitrary integer `n`. -/
def pySliceTo {α : Type} (data : List α) (n : Int) : List α :=
  if 0 ≤ n then data.take n.toNat
  else data.take (data.length - (-n).toNat)

/-- Embedding of the cap: `if max_samples: train_data =
train_data[:max_samples]`. -/
def applyMaxSamples {α : Type} (max_samples : Option Int)
    (data : List α) : List α :=
  if optIntTruthy max_samples then pySliceTo data (max_samples.getD 0)
  else data

/-! ## Tokenization (`tokenize_example`, distill_lambda.py lines 230-259)

The HuggingFace tokenizer itself is external; we embed its output on the
full text and on the prompt as token-id lists, and embed exactly what
the settings `max_length = max_seq_length, truncation=True,
padding="max_length"` do to them: truncate to `max_seq_length`, then pad
on the right with the pad-token id, the attention mask being 1 on real
tokens and 0 on padding.  The prompt is encoded with truncation but no
padding, and `prompt_len` is its (truncated) length.  `labels` is a copy
of `input_ids` whose first `prompt_len` entries are overwritten with
`-100` (`labels[:, :prompt_len] = -100`). -/

def IGNORE : Int := -100

/-- Python `labels[:n] = -100` on a copy of the list. -/
def maskFirst : List Int → Nat → List Int
  | l, 0 => l
  | [], _ + 1 => []
  | _ :: t, n + 1 => IGNORE :: maskFirst t n

/-- Python `prompt_len = prompt_encoded["input_ids"].shape[1]`: the length
of the prompt's encoding after truncation to `max_seq_length`. -/
def promptLen (promptTok : List Int) (max_seq_length : Nat) : Nat :=
  min promptTok.length max_seq_length

structure TokenizedExample where
  input_ids : List Int
  attention_mask : List Int
  labels : List Int
deriving DecidableEq, Repr

/-- Embedding of `tokenize_example`: `fullTok` is the tokenizer's output
on `format_prompt text ++ ir`, `promptTok` its output on the prompt
alone, both before truncation/padding. -/
def tokenize_example (fullTok promptTok : List Int)
    (max_seq_length : Nat) (padId : Int) : TokenizedExample :=
  let realLen := min fullTok.length max_seq_length
  let input_ids := fullTok.take max_seq_length ++
    List.replicate (max_seq_length - realLen) padId
  let attention_mask := List.replicate realLen (1 : Int) ++
    List.replicate (max_seq_length - realLen) (0 : Int)
  let labels := maskFirst input_ids (promptLen promptTok max_seq_length)
  ⟨input_ids, attention_mask, labels⟩

/-- The first padding position of a tokenized example: `min
fullTok.length max_seq_length` (equal to `max_seq_length` itself when
nothing was padded). -/
def firstPad (fullTok : List Int) (max_seq_length : Nat) : Nat :=
  min fullTok.length max_seq_length

/-! ## Loss combination (distill_lambda.py lines 323-333, distill.py
lines 295-310)

Tensor scalars are abstracted to exact rationals.  The value
`F.kl_div(student_log_probs, teacher_probs, reduction="batchmean")` on
the masked positions is taken as an opaque input `klValue`; the step
computes `mask = labels != -100`, and the distillation loss is
`klValue * temperature^2` when `mask.any()` and `0` otherwise. -/

def stepDistillLoss (labels : List Int) (klValue temperature : ℚ) : ℚ :=
  if labels.any (fun l => l ≠ IGNORE) then klValue * temperature ^ 2
  else 0

/-- Embedding of `loss = alpha * distill_loss + (1 - alpha) * task_loss`. -/
def combinedLoss (alpha distill_loss task_loss : ℚ) : ℚ :=
  alpha * distill_loss + (1 - alpha) * task_loss

/-! ## Epoch checkpointing (distill_lambda.py lines 389-395)

`best_loss` starts at `float("inf")` (modelled as `none`); after each
epoch, if `avg_loss < best_loss` the checkpoint for that epoch is saved
and `best_loss` is updated.  `saveLoop e best losses` returns the
`(epoch, loss)` pairs saved, in order, for epoch indices `e, e+1, …`. -/

def improves (avg_loss : ℚ) : Option ℚ → Bool
  | none => true
  | some best => decide (avg_loss < best)

def saveLoop : Nat → Option ℚ → List ℚ → List (Nat × ℚ)
  | _, _, [] => []
  | e, best, avg_loss :: rest =>
    if improves avg_loss best then
      (e, avg_loss) :: saveLoop (e + 1) (some avg_loss) rest
    else
      saveLoop (e + 1) best rest

/-- The checkpoints a run saves, given the per-epoch average losses. -/
def savedCheckpoints (losses : List ℚ) : List (Nat × ℚ) :=
  saveLoop 0 none losses

/-! ## Teardown (distill_lambda.py lines 401-415)

`cleanup_distributed()` is the last statement of `distill`'s
straight-line body; there is no `try`/`finally`, so an exception raised
anywhere in the body propagates out before the call is reached.  The
body's outcome is an `Except`; the embedding returns whether
`cleanup_distributed` executed together with the propagated outcome. -/

def distillTail {ε α : Type} (body : Except ε α) : Bool × Except ε α :=
  match body with
  | Except.ok a => (true, Except.ok a)
  | Except.error e => (false, Except.error e)

/-! ## Dataset sharding (distill_lambda.py lines 265-275)

`DistributedSampler(dataset, num_replicas=world_size, rank=rank,
shuffle=True)` with the default `drop_last=False`.  Its algorithm, per
epoch: draw a permutation `perm` of `range N` from the epoch seed; with
`num_samples = ceil(N / W)` and `total_size = num_samples * W`, pad
`perm` to length `total_size` by repeating its own prefix
(`indices += indices[:padding_size]`, cycling when the padding exceeds
`N`); worker `rank` receives the strided slice
`indices[rank : total_size : W]`.  The seed-derived permutation is the
`perm` parameter below. -/

/-- Python `num_samples = math.ceil(N / num_replicas)`. -/
def numSamples (N W : Nat) : Nat := (N + W - 1) / W

/-- Pad `indices` to length `total` by repeating it
(`indices += indices[:padding_size]`, or whole-list repetition when the
padding exceeds the list). -/
def paddedIndices (indices : List Nat) (total : Nat) : List Nat :=
  let padding := total - indices.length
  if padding ≤ indices.length then
    indices ++ indices.take padding
  else
    indices ++
      ((List.replicate ((padding + indices.length - 1) / indices.length)
        indices).flatten).take padding

/-- The shard `indices[rank : total_size : num_replicas]` handed to one
worker: the elements at positions `rank, rank + W, rank + 2·W, …` of the
padded index list. -/
def shardIndices (perm : List Nat) (W rank : Nat) : List Nat :=
  let m := numSamples perm.length W
  let padded := paddedIndices perm (m * W)
  (List.range m).map (fun i => padded.getD (rank + i * W) 0)

/-- The property C1 asserts of the shards of one epoch: pairwise
disjoint, jointly covering each example index exactly once, and all of
the same size. -/
def shardsPartitionClaim (perm : List Nat) (W : Nat) : Prop :=
  ((List.range W).Pairwise fun r s =>
    (shardIndices perm W r).Disjoint (shardIndices perm W s))
  ∧ ((List.range W).flatMap (shardIndices perm W)).Perm
      (List.range perm.length)
  ∧ ∀ r ∈ List.range W, ∀ s ∈ List.range W,
      (shardIndices perm W r).length = (shardIndices perm W s).length

/-! ## Helper lemmas -/

theorem maskFirst_length (l : List Int) (n : Nat) :
    (maskFirst l n).length = l.length := by
  induction l generalizing n with
  | nil => cases n <;> rfl
  | cons a t ih =>
    cases n with
    | zero => rfl
    | succ n => simp [maskFirst, ih]

theorem maskFirst_getD_lt (l : List Int) (n i : Nat) (hi : i < n)
    (hl : i < l.length) (d : Int) : (maskFirst l n).getD i d = IGNORE := by
  induction l generalizing n i with
  | nil => simp at hl
  | cons a t ih =>
    cases n with
    | zero => omega
    | succ n =>
      cases i with
      | zero => simp [maskFirst]
      | succ i =>
        have hl' : i < t.length := by simpa using hl
        simpa [maskFirst] using ih n i (by omega) hl'

theorem maskFirst_getD_ge (l : List Int) (n i : Nat) (hi : n ≤ i) (d : Int) :
    (maskFirst l n).getD i d = l.getD i d := by
  induction l generalizing n i with
  | nil => cases n <;> rfl
  | cons a t ih =>
    cases n with
    | zero => rfl
    | succ n =>
      cases i with
      | zero => omega
      | succ i => simpa [maskFirst] using ih n i (by omega)

theorem pairwise_mem_rel {α : Type} {R : α → α → Prop} {l : List α}
    (hp : l.Pairwise R) {a b : α} (ha : a ∈ l) (hb : b ∈ l) :
    a = b ∨ R a b ∨ R b a := by
  induction l with
  | nil => simp at ha
  | cons x t ih =>
    rcases List.pairwise_cons.mp hp with ⟨hx, ht⟩
    rcases List.mem_cons.mp ha with rfl | ha'
    · rcases List.mem_cons.mp hb with rfl | hb'
      · exact Or.inl rfl
      · exact Or.inr (Or.inl (hx _ hb'))
    · rcases List.mem_cons.mp hb with rfl | hb'
      · exact Or.inr (Or.inr (hx _ ha'))
      · exact ih ht ha' hb'

theorem saveLoop_mem_bound :
    ∀ (losses : List ℚ) (e : Nat) (best : Option ℚ) (p : Nat × ℚ),
    p ∈ saveLoop e best losses → e ≤ p.1 ∧ ∀ b, best = some b → p.2 < b
  | [], e, best, p, hp => by simp [saveLoop] at hp
  | loss :: rest, e, best, p, hp => by
    rw [saveLoop] at hp
    by_cases himp : improves loss best = true
    · rw [if_pos himp] at hp
      rcases List.mem_cons.mp hp with rfl | hp'
      · refine ⟨le_refl _, fun b hb => ?_⟩
        subst hb
        simpa [improves] using himp
      · have hrec := saveLoop_mem_bound rest (e + 1) (some loss) p hp'
        refine ⟨by omega, fun b hb => ?_⟩
        have h1 : p.2 < loss := hrec.2 loss rfl
        subst hb
        have h2 : loss < b := by simpa [improves] using himp
        exact h1.trans h2
    · rw [if_neg himp] at hp
      have hrec := saveLoop_mem_bound rest (e + 1) best p hp
      exact ⟨by omega, hrec.2⟩

theorem saveLoop_pairwise :
    ∀ (losses : List ℚ) (e : Nat) (best : Option ℚ),
    (saveLoop e best losses).Pairwise (fun p q => p.1 < q.1 ∧ q.2 < p.2)
  | [], _, _ => by simp [saveLoop]
  | loss :: rest, e, best => by
    rw [saveLoop]
    by_cases himp : improves loss best = true
    · rw [if_pos himp]
      refine List.pairwise_cons.mpr
        ⟨fun q hq => ?_, saveLoop_pairwise rest (e + 1) (some loss)⟩
      have hb := saveLoop_mem_bound rest (e + 1) (some loss) q hq
      exact ⟨by omega, hb.2 loss rfl⟩
    · rw [if_neg himp]
      exact saveLoop_pairwise rest (e + 1) best

theorem map_getD_range (c : List Nat) :
    (List.range c.length).map (fun i => c.getD i 0) = c := by
  induction c with
  | nil => rfl
  | cons a c ih =>
    rw [List.length_cons, List.range_succ_eq_map, List.map_cons, List.map_map]
    simp only [Function.comp_def, List.getD_cons_zero, List.getD_cons_succ]
    rw [ih]

theorem flatMap_cons_perm (rs : List Nat) (a : Nat → Nat) (s : Nat → List Nat) :
    List.Perm (rs.flatMap (fun r => a r :: s r)) (rs.map a ++ rs.flatMap s) := by
  induction rs with
  | nil => simp
  | cons r rs ih =>
    simp only [List.flatMap_cons, List.map_cons, List.cons_append]
    refine List.Perm.cons _ ?_
    have h1 : List.Perm (s r ++ rs.flatMap (fun r => a r :: s r))
        (s r ++ (rs.map a ++ rs.flatMap s)) := List.Perm.append_left _ ih
    have h2 : List.Perm (s r ++ (rs.map a ++ rs.flatMap s))
        (rs.map a ++ (s r ++ rs.flatMap s)) := by
      rw [← List.append_assoc, ← List.append_assoc]
      exact List.Perm.append_right _ List.perm_append_comm
    exact h1.trans h2

theorem transpose_perm :
    ∀ (m W : Nat) (l : List Nat), l.length = m * W →
    List.Perm ((List.range W).flatMap
      (fun r => (List.range m).map (fun i => l.getD (r + i * W) 0))) l
  | 0, W, l, hl => by
    have hnil : l = [] := List.eq_nil_of_length_eq_zero (by simpa using hl)
    subst hnil
    simp
  | m + 1, W, l, hl => by
    have hdrop : ∀ (r i : Nat),
        (l.drop W).getD (r + i * W) 0 = l.getD (r + (i + 1) * W) 0 := by
      intro r i
      rw [List.getD_eq_getElem?_getD, List.getD_eq_getElem?_getD,
        List.getElem?_drop]
      have hidx : W + (r + i * W) = r + (i + 1) * W := by ring
      rw [hidx]
    have hfun : (fun r => (List.range (m + 1)).map
          (fun i => l.getD (r + i * W) 0))
        = fun r => l.getD r 0 ::
          (List.range m).map (fun i => (l.drop W).getD (r + i * W) 0) := by
      funext r
      rw [List.range_succ_eq_map, List.map_cons, List.map_map]
      have htail : ((fun i => l.getD (r + i * W) 0) ∘ Nat.succ)
          = fun i => (l.drop W).getD (r + i * W) 0 := by
        funext i
        simp only [Function.comp_apply]
        exact (hdrop r i).symm
      rw [htail]
      simp
    rw [hfun]
    have hlen' : l.length = m * W + W := by rw [hl]; ring
    have hW_le : W ≤ l.length := by omega
    have hperm1 := flatMap_cons_perm (List.range W) (fun r => l.getD r 0)
      (fun r => (List.range m).map (fun i => (l.drop W).getD (r + i * W) 0))
    have hmap : (List.range W).map (fun r => l.getD r 0) = l.take W := by
      have htk : (l.take W).length = W := by
        rw [List.length_take]
        omega
      have hmg := map_getD_range (l.take W)
      rw [htk] at hmg
      rw [← hmg]
      apply List.map_congr_left
      intro i hi
      have hiW : i < W := List.mem_range.mp hi
      simp [List.getD_eq_getElem?_getD, List.getElem?_take, hiW]
    have hdl : (l.drop W).length = m * W := by
      rw [List.length_drop]
      omega
    have hIH := transpose_perm m W (l.drop W) hdl
    refine hperm1.trans ?_
    rw [hmap]
    have happ : List.Perm (l.take W ++ (List.range W).flatMap
        (fun r => (List.range m).map (fun i => (l.drop W).getD (r + i * W) 0)))
        (l.take W ++ l.drop W) := List.Perm.append_left _ hIH
    simpa [List.take_append_drop] using happ

theorem numSamples_of_dvd (N W : Nat) (hW : 0 < W) (h : W ∣ N) :
    numSamples N W = N / W := by
  obtain ⟨k, rfl⟩ := h
  unfold numSamples
  rcases Nat.eq_zero_or_pos k with rfl | hk
  · rw [Nat.mul_zero]
    have h0 : (W - 1) / W = 0 := Nat.div_eq_of_lt (by omega)
    simp [h0]
  · have h1 : W * k + W - 1 = (W - 1) + k * W := by
      rw [Nat.mul_comm]
      omega
    rw [h1, Nat.add_mul_div_right _ _ hW, Nat.div_eq_of_lt (by omega),
      Nat.mul_div_cancel_left _ hW]
    omega

theorem padded_of_dvd (perm : List Nat) (W : Nat) (hW : 0 < W)
    (h : W ∣ perm.length) :
    paddedIndices perm (numSamples perm.length W * W) = perm := by
  rw [numSamples_of_dvd _ _ hW h, Nat.div_mul_cancel h]
  unfold paddedIndices
  simp

theorem shardIndices_of_dvd (perm : List Nat) (W r : Nat) (hW : 0 < W)
    (h : W ∣ perm.length) :
    shardIndices perm W r = (List.range (perm.length / W)).map
      (fun i => perm.getD (r + i * W) 0) := by
  simp only [shardIndices]
  rw [padded_of_dvd perm W hW h, numSamples_of_dvd _ _ hW h]

/-! ## Claim theorems -/

/-- C1 counterexample: for a dataset of 3 examples and `world_size = 2`
(shuffle drawing the identity permutation), `DistributedSampler` pads
the index list to `[0, 1, 2, 0]`; the two shards `[0, 2]` and `[1, 0]`
both contain index 0, so the shards are not pairwise disjoint and the
union does not cover each index exactly once. -/
theorem shards_not_exactly_once_cex : ¬ shardsPartitionClaim [0, 1, 2] 2 := by
  intro h
  have hd := h.1
  have hrange : List.range 2 = [0, 1] := by decide
  rw [hrange] at hd
  have h01 := (List.pairwise_cons.mp hd).1 1 (by simp)
  exact h01 (show 0 ∈ shardIndices [0, 1, 2] 2 0 by decide)
    (show 0 ∈ shardIndices [0, 1, 2] 2 1 by decide)

/-- C1 (amended): per epoch, all `W` shards always have the same size
`⌈N / W⌉`; when `W` divides `N` (so the sampler pads nothing) the shards
are additionally pairwise disjoint and their union covers every example
index exactly once.  When `W` does not divide `N`, the sampler pads the
shuffled index list with repeated indices, so some index necessarily
appears twice across the shards. -/
theorem shards_partition_of_dvd (perm : List Nat) (W : Nat) (hW : 1 < W)
    (hperm : perm.Perm (List.range perm.length)) :
    (∀ r ∈ List.range W, (shardIndices perm W r).length
      = numSamples perm.length W)
    ∧ (W ∣ perm.length → shardsPartitionClaim perm W) := by
  have hW0 : 0 < W := by omega
  constructor
  · intro r _
    simp [shardIndices]
  · intro hdvd
    have hsh : ∀ r, shardIndices perm W r
        = (List.range (perm.length / W)).map
          (fun i => perm.getD (r + i * W) 0) :=
      fun r => shardIndices_of_dvd perm W r hW0 hdvd
    have hlen : perm.length = (perm.length / W) * W :=
      (Nat.div_mul_cancel hdvd).symm
    have hjoin : List.Perm ((List.range W).flatMap (shardIndices perm W))
        perm := by
      have ht := transpose_perm (perm.length / W) W perm hlen
      have hfe : shardIndices perm W
          = fun r => (List.range (perm.length / W)).map
            (fun i => perm.getD (r + i * W) 0) := funext hsh
      rw [hfe]
      exact ht
    have hcover : List.Perm ((List.range W).flatMap (shardIndices perm W))
        (List.range perm.length) := hjoin.trans hperm
    have hnodup : ((List.range W).flatMap (shardIndices perm W)).Nodup :=
      hcover.nodup_iff.mpr (List.nodup_range _)
    have hpair := (List.nodup_flatMap.mp hnodup).2
    exact ⟨hpair, hcover, fun r _ s _ => by rw [hsh r, hsh s]; simp⟩

/-- C1 witness: four examples over two workers, with the identity
shuffle: each shard has size 2 and the two shards partition
`{0, 1, 2, 3}`. -/
theorem shards_partition_of_dvd_witness :
    (1 < 2 ∧ (List.range 4).Perm (List.range (List.range 4).length))
    ∧ ((∀ r ∈ List.range 2, (shardIndices (List.range 4) 2 r).length
        = numSamples (List.range 4).length 2)
      ∧ (2 ∣ (List.range 4).length → shardsPartitionClaim (List.range 4) 2)) :=
  ⟨⟨by decide, by simp⟩,
   shards_partition_of_dvd (List.range 4) 2 (by decide) (by simp)⟩

/-- C2 counterexample: on a file whose first line is malformed JSON,
`load_jsonl` aborts with the parse error instead of skipping and
counting the line (the spec-modelled loader would keep the valid record
and count one skip). -/
theorem load_jsonl_aborts_cex :
    load_jsonl [JsonLine.malformed, JsonLine.valid (0 : Nat)]
      = Except.error ()
    ∧ load_jsonl_spec [JsonLine.malformed, JsonLine.valid (0 : Nat)]
      = ([0], 1) := by
  constructor <;> rfl

/-- C2 (amended): `load_jsonl` skips blank lines only; it returns an
error exactly when some line is malformed (the first `json.loads`
failure aborts the whole load, with no skip count), and on a file with
no malformed line it returns all valid records in order.  Neither
variant checks a minimum dataset size. -/
theorem load_jsonl_behavior {α : Type} (lines : List (JsonLine α)) :
    (load_jsonl lines = Except.error () ↔ JsonLine.malformed ∈ lines)
    ∧ (JsonLine.malformed ∉ lines →
        load_jsonl lines = Except.ok (lines.filterMap lineValue)) := by
  induction lines with
  | nil => simp [load_jsonl, lineValue]
  | cons x rest ih =>
    cases x with
    | blank =>
      refine ⟨?_, ?_⟩
      · rw [show load_jsonl (JsonLine.blank :: rest) = load_jsonl rest
          from rfl, ih.1]
        simp
      · intro h
        have h' : JsonLine.malformed ∉ rest :=
          fun hm => h (List.mem_cons_of_mem _ hm)
        rw [show load_jsonl (JsonLine.blank :: rest) = load_jsonl rest
          from rfl, ih.2 h']
        simp [lineValue]
    | malformed =>
      refine ⟨?_, ?_⟩
      · simp [load_jsonl]
      · intro h
        exact absurd (List.mem_cons_self _ _) h
    | valid a =>
      refine ⟨?_, ?_⟩
      · rw [show load_jsonl (JsonLine.valid a :: rest)
          = (load_jsonl rest).map (a :: ·) from rfl]
        cases hrest : load_jsonl rest with
        | ok l =>
          simp only [Except.map]
          constructor
          · intro h
            exact absurd h (by simp)
          · intro h
            rcases List.mem_cons.mp h with h' | h'
            · exact absurd h' (by simp)
            · rw [← ih.1] at h'
              rw [hrest] at h'
              exact absurd h' (by simp)
        | error e =>
          cases e
          simp only [Except.map]
          constructor
          · intro _
            exact List.mem_cons_of_mem _ (ih.1.mp hrest)
          · intro _
            trivial
      · intro h
        have h' : JsonLine.malformed ∉ rest :=
          fun hm => h (List.mem_cons_of_mem _ hm)
        rw [show load_jsonl (JsonLine.valid a :: rest)
          = (load_jsonl rest).map (a :: ·) from rfl, ih.2 h']
        simp [Except.map, lineValue]

/-- C2 witness: on a file of one blank and one valid line, the load
succeeds and returns exactly the valid record. -/
theorem load_jsonl_behavior_witness :
    (JsonLine.malformed ∉ [JsonLine.blank, JsonLine.valid (7 : Nat)])
    ∧ load_jsonl [JsonLine.blank, JsonLine.valid (7 : Nat)]
        = Except.ok [7] :=
  ⟨by decide, by
    have h := (load_jsonl_behavior
      [JsonLine.blank, JsonLine.valid (7 : Nat)]).2 (by decide)
    simpa [lineValue] using h⟩

/-- C3: reconciliation computes `target_vocab` as the maximum of the two
tokenizer vocabulary sizes and the two model embedding-table sizes;
afterwards both embedding tables equal `target_vocab`, and neither table
ever shrinks. -/
theorem reconcileVocab_correct
    (teacher_tok_vocab student_tok_vocab
      teacher_model_vocab student_model_vocab : Nat) :
    (reconcileVocab teacher_tok_vocab student_tok_vocab
        teacher_model_vocab student_model_vocab).1
      = max (max (max teacher_tok_vocab student_tok_vocab)
          teacher_model_vocab) student_model_vocab
    ∧ (reconcileVocab teacher_tok_vocab student_tok_vocab
        teacher_model_vocab student_model_vocab).2.1
      = (reconcileVocab teacher_tok_vocab student_tok_vocab
        teacher_model_vocab student_model_vocab).1
    ∧ (reconcileVocab teacher_tok_vocab student_tok_vocab
        teacher_model_vocab student_model_vocab).2.2
      = (reconcileVocab teacher_tok_vocab student_tok_vocab
        teacher_model_vocab student_model_vocab).1
    ∧ teacher_model_vocab ≤ (reconcileVocab teacher_tok_vocab
        student_tok_vocab teacher_model_vocab student_model_vocab).2.1
    ∧ student_model_vocab ≤ (reconcileVocab teacher_tok_vocab
        student_tok_vocab teacher_model_vocab student_model_vocab).2.2 := by
  refine ⟨rfl, ?_, ?_, ?_, ?_⟩ <;> simp only [reconcileVocab] <;>
    split <;> omega

/-- C4 counterexample: with a teacher tokenizer vocabulary of 10 and a
student tokenizer vocabulary of 5, the modal variant still tokenizes
with the student tokenizer, whose vocabulary is not the larger of the
two. -/
theorem modal_tokenizer_cex :
    selectTokenizerModal 10 5 = TokChoice.student
    ∧ tokVocabOf 10 5 (selectTokenizerModal 10 5) ≠ max 10 5 := by
  constructor <;> decide

/-- C4 (amended): the lambda variant selects as canonical the tokenizer
with the larger vocabulary (the teacher's on ties) and uses it for all
tokenization; the modal variant always tokenizes with the student
tokenizer, regardless of which vocabulary is larger. -/
theorem tokenizer_selection_correct (teacher_tok_vocab student_tok_vocab : Nat) :
    tokVocabOf teacher_tok_vocab student_tok_vocab
        (selectTokenizerLambda teacher_tok_vocab student_tok_vocab)
      = max teacher_tok_vocab student_tok_vocab
    ∧ selectTokenizerModal teacher_tok_vocab student_tok_vocab
      = TokChoice.student := by
  refine ⟨?_, rfl⟩
  unfold selectTokenizerLambda
  split
  · simp [tokVocabOf]
    omega
  · simp [tokVocabOf]
    omega

/-- C8: `cleanup_distributed()` is the last statement of the
straight-line body of `distill`, with no `try`/`finally`; it executes on
normal completion but is never reached when the body raises, so the
process group is not destroyed on the abnormal exit path. -/
theorem cleanup_skipped_on_error :
    distillTail (Except.error () : Except Unit Unit)
      = (false, Except.error ())
    ∧ distillTail (Except.ok () : Except Unit Unit)
      = (true, Except.ok ()) := by
  constructor <;> rfl

/-- C9: with `world_size > 1` the student is pinned to device
`2 * local_rank` and the teacher to device `2 * local_rank + 1`, which
are always distinct. -/
theorem device_placement_correct (world_size local_rank : Nat)
    (h : 1 < world_size) :
    studentGpu world_size local_rank = 2 * local_rank
    ∧ teacherGpu world_size local_rank = some (2 * local_rank + 1)
    ∧ some (studentGpu world_size local_rank)
      ≠ teacherGpu world_size local_rank := by
  simp only [studentGpu, teacherGpu, if_pos h]
  refine ⟨by omega, by simp [Nat.mul_comm], by simp⟩

/-- C9 witness: at `world_size = 2`, `local_rank = 1` the student sits
on device 2 and the teacher on device 3. -/
theorem device_placement_correct_witness :
    1 < 2
    ∧ (studentGpu 2 1 = 2 * 1
      ∧ teacherGpu 2 1 = some (2 * 1 + 1)
      ∧ some (studentGpu 2 1) ≠ teacherGpu 2 1) :=
  ⟨by decide, device_placement_correct 2 1 (by decide)⟩

/-- C10: because the cap is applied under a Python truthiness test,
`max_samples = 0` leaves the dataset untouched, exactly like
`max_samples = None`: the full dataset is used, not an empty one. -/
theorem max_samples_zero_uncapped {α : Type} (data : List α) :
    applyMaxSamples (some 0) data = data
    ∧ applyMaxSamples none data = data := by
  constructor <;> simp [applyMaxSamples, optIntTruthy]

/-- C5: tokenization pads/truncates to exactly `max_seq_length`, so
`input_ids`, `attention_mask` and `labels` all have that length; every
position below the prompt's token length is labelled `IGNORE = -100`,
and from the prompt length up to the first padding position the label
equals the input id. -/
theorem tokenize_example_correct (fullTok promptTok : List Int)
    (max_seq_length : Nat) (padId : Int) :
    ((tokenize_example fullTok promptTok max_seq_length padId).input_ids.length
        = max_seq_length
      ∧ (tokenize_example fullTok promptTok max_seq_length padId).attention_mask.length
        = max_seq_length
      ∧ (tokenize_example fullTok promptTok max_seq_length padId).labels.length
        = max_seq_length)
    ∧ (∀ i, i < promptLen promptTok max_seq_length →
        (tokenize_example fullTok promptTok max_seq_length padId).labels.getD i 0
          = IGNORE)
    ∧ (∀ i, promptLen promptTok max_seq_length ≤ i →
        i < firstPad fullTok max_seq_length →
        (tokenize_example fullTok promptTok max_seq_length padId).labels.getD i 0
          = (tokenize_example fullTok promptTok max_seq_length padId).input_ids.getD i 0) := by
  have hidlen :
      (fullTok.take max_seq_length ++
        List.replicate (max_seq_length - min fullTok.length max_seq_length)
          padId).length = max_seq_length := by
    simp [List.length_take]
    omega
  refine ⟨⟨?_, ?_, ?_⟩, ?_, ?_⟩
  · simpa [tokenize_example] using hidlen
  · simp [tokenize_example]
  · simpa [tokenize_example, maskFirst_length] using hidlen
  · intro i hi
    have hiL : i < max_seq_length := lt_of_lt_of_le hi (Nat.min_le_right _ _)
    simp only [tokenize_example]
    exact maskFirst_getD_lt _ _ _ hi (by rw [hidlen]; exact hiL) 0
  · intro i hge hpad
    simp only [tokenize_example]
    exact maskFirst_getD_ge _ _ _ hge 0

/-- C5 witness: for full-text tokens `[1, 2, 3]`, prompt tokens `[1]`,
`max_seq_length = 5`, pad id 9: the three sequences have length 5,
position 0 is labelled `-100`, and position 2 (after the prompt, before
the padding) carries its input id as label. -/
theorem tokenize_example_correct_witness :
    (tokenize_example [1, 2, 3] [1] 5 9).input_ids.length = 5
    ∧ (tokenize_example [1, 2, 3] [1] 5 9).labels.getD 0 0 = IGNORE
    ∧ (tokenize_example [1, 2, 3] [1] 5 9).labels.getD 2 0
      = (tokenize_example [1, 2, 3] [1] 5 9).input_ids.getD 2 0 :=
  ⟨(tokenize_example_correct [1, 2, 3] [1] 5 9).1.1,
   (tokenize_example_correct [1, 2, 3] [1] 5 9).2.1 0 (by decide),
   (tokenize_example_correct [1, 2, 3] [1] 5 9).2.2 2 (by decide) (by decide)⟩

/-- C6: a checkpoint is saved exactly when the epoch's average loss
strictly improves on the best seen so far, so the losses of the saved
checkpoints are strictly decreasing: saved entries `(e₁, l₁)` and
`(e₂, l₂)` with `e₁ < e₂` satisfy `l₂ < l₁`. -/
theorem savedCheckpoints_strict_anti (losses : List ℚ) (e₁ e₂ : Nat)
    (l₁ l₂ : ℚ) (h₁ : (e₁, l₁) ∈ savedCheckpoints losses)
    (h₂ : (e₂, l₂) ∈ savedCheckpoints losses) (he : e₁ < e₂) : l₂ < l₁ := by
  have hp := saveLoop_pairwise losses 0 none
  rcases pairwise_mem_rel hp h₁ h₂ with heq | hR | hR
  · exact absurd (congrArg Prod.fst heq) (Nat.ne_of_lt he)
  · exact hR.2
  · exact absurd hR.1 (by omega)

/-- C6 witness: with epoch losses `[5, 3, 4, 2]` the run saves
checkpoints at epochs 0, 1 and 3; the one at epoch 1 has a strictly
smaller loss than the one at epoch 0. -/
theorem savedCheckpoints_strict_anti_witness :
    ((0, (5 : ℚ)) ∈ savedCheckpoints [5, 3, 4, 2]
    ∧ (1, (3 : ℚ)) ∈ savedCheckpoints [5, 3, 4, 2]
    ∧ 0 < 1)
    ∧ (3 : ℚ) < 5 :=
  ⟨⟨by decide, by decide, by decide⟩,
   savedCheckpoints_strict_anti [5, 3, 4, 2] 0 1 5 3
     (by decide) (by decide) (by decide)⟩

/-- C7: when the label mask `labels != -100` selects zero positions the
distillation loss is exactly 0; and the combined loss computed by the
step is exactly `alpha * distill_loss + (1 - alpha) * task_loss` for any
`alpha ∈ [0, 1]`. -/
theorem loss_combiner_correct (labels : List Int)
    (klValue temperature task_loss alpha : ℚ)
    (h0 : 0 ≤ alpha) (h1 : alpha ≤ 1) :
    (labels.countP (fun l => decide (l ≠ IGNORE)) = 0 →
      stepDistillLoss labels klValue temperature = 0)
    ∧ combinedLoss alpha (stepDistillLoss labels klValue temperature) task_loss
      = alpha * stepDistillLoss labels klValue temperature
        + (1 - alpha) * task_loss := by
  refine ⟨fun hmask => ?_, rfl⟩
  have hall : ∀ l ∈ labels, l = IGNORE := by
    intro l hl
    by_contra hne
    have := List.countP_eq_zero.mp hmask l hl
    simp [hne] at this
  have hany : labels.any (fun l => l ≠ IGNORE) = false := by
    simp only [List.any_eq_false]
    intro l hl
    simp [hall l hl]
  unfold stepDistillLoss
  rw [hany]
  simp

/-- C7 witness: with all labels `-100`, the distillation loss is 0, and
at `alpha = 1/2` the blend formula holds exactly. -/
theorem loss_combiner_correct_witness :
    ((0 : ℚ) ≤ 1 / 2 ∧ (1 / 2 : ℚ) ≤ 1
    ∧ [IGNORE].countP (fun l => decide (l ≠ IGNORE)) = 0)
    ∧ stepDistillLoss [IGNORE] 3 2 = 0
    ∧ combinedLoss (1 / 2) (stepDistillLoss [IGNORE] 3 2) 7
      = (1 / 2) * stepDistillLoss [IGNORE] 3 2 + (1 - 1 / 2) * 7 :=
  ⟨⟨by norm_num, by norm_num, by decide⟩,
   (loss_combiner_correct [IGNORE] 3 2 7 (1 / 2)
     (by norm_num) (by norm_num)).1 (by decide),
   (loss_combiner_correct [IGNORE] 3 2 7 (1 / 2)
     (by norm_num) (by norm_num)).2⟩

end VCad
